import Mathlib

/-!
Shallow embedding of `src/app.py`, a Streamlit supplier-lookup tool.

The program's core logic is: column-name normalization (`_normalize_col`),
a static alias dictionary (`COL_ALIASES`), table canonicalization
(`standardize_columns`), text normalization (`normalize_text`), query
tokenization (`tokenize_query`), the AND-of-substrings matcher
(`match_row`), the result/UI glue and the CSV export.

Modelling notes, all marked at the definition they concern:
* Python `set` literals have no guaranteed iteration order; the spec
  (§4.2) mandates a stable declaration order for the alias variant sets
  and for the set of required canonical columns, and the embedding uses
  that declaration order.
* Python `str` machinery (`str.strip`, `str.lower`, `str.casefold`,
  `unicodedata.normalize("NFKD", ·)`, combining-class tests) is modelled
  over the character repertoire exercised by this program (ASCII plus the
  accented Latin letters appearing in Spanish headers/data plus `ß` as a
  full-case-fold representative); each table below is the restriction of
  the corresponding Unicode table to that repertoire.
* `pandas` frames are modelled column-orientedly: a frame is a list of
  (label, cells) columns, duplicate labels allowed (pandas allows them).
  The cleanup loop `df2[c] = df2[c].fillna("").astype(str).str.strip()`
  raises `AttributeError` when the label `c` is duplicated (selection
  yields a `DataFrame`, which has no `.str` accessor), so the embedded
  `standardize_columns` returns `Except.error` exactly in that situation.
-/

set_option maxRecDepth 4000
set_option maxHeartbeats 1000000

/-- Whitespace recognized by Python `str.strip()` (ASCII repertoire). -/
def isPySpace (c : Char) : Bool :=
  c == ' ' || c == '\t' || c == '\n' || c == '\r' || c == '\u000b' || c == '\u000c'

/-- Python `str.strip()` on a character list. -/
def stripChars (cs : List Char) : List Char :=
  ((cs.dropWhile isPySpace).reverse.dropWhile isPySpace).reverse

/-- Python `str.strip()`. -/
def pyStrip (s : String) : String := String.mk (stripChars s.toList)

/-- Python `str.lower()`, restricted to the repertoire this program meets
(ASCII letters and accented Spanish capitals). -/
def pyLowerChar (c : Char) : Char :=
  if 'A' ≤ c ∧ c ≤ 'Z' then Char.ofNat (c.toNat + 32)
  else if c = 'Á' then 'á'
  else if c = 'É' then 'é'
  else if c = 'Í' then 'í'
  else if c = 'Ó' then 'ó'
  else if c = 'Ú' then 'ú'
  else if c = 'Ñ' then 'ñ'
  else if c = 'Ü' then 'ü'
  else c

/-- The five single-character replaces of `_normalize_col`:
`á→a, é→e, í→i, ó→o, ú→u` (exactly those; `ñ`/`ü` are not replaced). -/
def deaccentChar (c : Char) : Char :=
  if c = 'á' then 'a'
  else if c = 'é' then 'e'
  else if c = 'í' then 'i'
  else if c = 'ó' then 'o'
  else if c = 'ú' then 'u'
  else c

/-- Embeds `c.replace("/", " /")`: every slash gains a preceding space. -/
def slashChar (c : Char) : List Char := if c = '/' then [' ', '/'] else [c]

/-- Embeds `c.replace("  ", " ")`: Python's left-to-right non-overlapping
replacement of two spaces by one. -/
def collapseTwo : List Char → List Char
  | ' ' :: ' ' :: rest => ' ' :: collapseTwo rest
  | c :: rest => c :: collapseTwo rest
  | [] => []

/-- Embeds `_normalize_col` from `app.py`: strip, lowercase, replace the five
accented vowels, insert a space before `/`, collapse double spaces. -/
def _normalize_col (col : String) : String :=
  String.mk (collapseTwo ((((stripChars col.toList).map pyLowerChar).map
    deaccentChar).map slashChar).flatten)

/-- Embeds `COL_ALIASES` from `app.py`.  The Python source stores the variants in
`set` literals, whose iteration order CPython does not fix; following the
spec's determinism requirement (§4.2) the embedding iterates them in
declaration order. -/
def COL_ALIASES : List (String × List String) :=
  [ ("nombre", ["nombre", "proveedor", "razon social", "razon social / nombre"]),
    ("web", ["web", "sitio web", "pagina", "pagina web", "website", "url"]),
    ("telefono", ["telefono", "tel", "whatsapp", "wa", "telefono/whatsapp"]),
    ("email", ["email", "mail", "e-mail", "correo", "correo electronico"]),
    ("pais", ["pais"]),
    ("provincia / estado",
      ["provincia / estado", "provincia", "estado", "provincia-estado", "provincia/estado"]),
    ("ciudad", ["ciudad", "localidad"]),
    ("direccion", ["direccion", "direc", "domicilio"]),
    ("productos", ["productos", "producto", "items", "categorias", "categoria"]) ]

/-- Embeds `DISPLAY_ORDER` from `app.py`. -/
def DISPLAY_ORDER : List String :=
  ["nombre", "web", "telefono", "email", "pais", "provincia / estado", "ciudad", "direccion"]

/-- Embeds `set(DISPLAY_ORDER + ["productos"])`, iterated in declaration order
(the nine strings are distinct, so the set has exactly these members). -/
def NEEDED : List String := DISPLAY_ORDER ++ [("productos")]

/-- A raw pandas sheet: columns in order, cells `none` for NaN.  Duplicate
labels are representable, as in pandas. -/
structure RawFrame where
  cols : List (String × List (Option String))
deriving DecidableEq, Repr

/-- A standardized frame: all cells strings. -/
structure Frame where
  cols : List (String × List String)
deriving DecidableEq, Repr

def RawFrame.names (f : RawFrame) : List String := f.cols.map Prod.fst

/-- Embeds `len(df.index)` (for the rectangular frames pandas builds, the length
of the first column). -/
def RawFrame.nrows (f : RawFrame) : Nat :=
  match f.cols.head? with
  | some p => p.2.length
  | none => 0

/-- pandas `df.empty`: some axis has length zero. -/
def RawFrame.emptyB (f : RawFrame) : Bool := f.cols.isEmpty || f.nrows == 0

def Frame.names (f : Frame) : List String := f.cols.map Prod.fst

def Frame.nrows (f : Frame) : Nat :=
  match f.cols.head? with
  | some p => p.2.length
  | none => 0

def Frame.emptyB (f : Frame) : Bool := f.cols.isEmpty || f.nrows == 0

/-- View a standardized frame as a raw one (all cells present). -/
def Frame.toRaw (f : Frame) : RawFrame :=
  ⟨f.cols.map (fun p => (p.1, p.2.map some))⟩

/-- Lookup in `cols_norm = {_normalize_col(c): c for c in df.columns}`:
a dict comprehension keeps, for each key, the LAST column producing it. -/
def colsNormFind (names : List String) (k : String) : Option String :=
  names.reverse.find? (fun n => _normalize_col n == k)

/-- The inner loop of `standardize_columns`: scan the variants of one
target and return `cols_norm[v]` for the first variant present. -/
def findRename (names : List String) : List String → Option String
  | [] => none
  | v :: rest =>
    match colsNormFind names v with
    | some orig => some orig
    | none => findRename names rest

/-- The `mapping` dict of `standardize_columns`: original header →
canonical target, one entry per matched target. -/
def buildMapping (names : List String) : List (String × String) :=
  COL_ALIASES.filterMap (fun p => (findRename names p.2).map (fun orig => (orig, p.1)))

/-- Embeds `df.rename(columns=mapping)` on a single label. -/
def renameName (mapping : List (String × String)) (n : String) : String :=
  (List.lookup n mapping).getD n

/-- Whether a label list contains a duplicate. -/
def hasDupB : List String → Bool
  | [] => false
  | n :: rest => rest.contains n || hasDupB rest

/-- Embeds `df2 = df.rename(columns=mapping)`. -/
def renameFrame (df : RawFrame) : RawFrame :=
  ⟨df.cols.map (fun p => (renameName (buildMapping df.names) p.1, p.2))⟩

/-- The loop `for needed in set(...): if needed not in df2.columns:
df2[needed] = ""`, appending an all-empty column of the frame's row
count; iterated in declaration order of the nine needed labels. -/
def addMissingAux (nr : Nat) : List String → RawFrame → RawFrame
  | [], f => f
  | k :: rest, f =>
    addMissingAux nr rest
      (if f.names.contains k then f else ⟨f.cols ++ [(k, List.replicate nr (some ("")))]⟩)

/-- Rename plus creation of the missing canonical columns. -/
def standardizedRaw (df : RawFrame) : RawFrame :=
  addMissingAux df.nrows NEEDED (renameFrame df)

/-- Embeds `fillna("").astype(str).str.strip()` on one cell. -/
def cleanCell (c : Option String) : String := pyStrip (c.getD (""))

/-- Embeds `pd.DataFrame(columns=[*DISPLAY_ORDER, "productos"])`. -/
def emptyCanonical : Frame := ⟨NEEDED.map (fun k => (k, []))⟩

/-- Embeds `standardize_columns` from `app.py`.  The cleanup loop
`df2[c] = df2[c].fillna("").astype(str).str.strip()` raises
`AttributeError` when a label is duplicated (`df2[c]` is then a
`DataFrame`, which has no `.str`); the embedding returns `Except.error`
exactly then. -/
def standardize_columns (dfOpt : Option RawFrame) : Except String Frame :=
  match dfOpt with
  | none => Except.ok emptyCanonical
  | some df =>
    if df.emptyB then Except.ok emptyCanonical
    else
      let df2 := standardizedRaw df
      if hasDupB df2.names then Except.error ("duplicate column label")
      else Except.ok ⟨df2.cols.map (fun p => (p.1, p.2.map cleanCell))⟩

/-- Embeds `unicodedata.normalize("NFKD", ·)` on one character, restricted to
the accented Latin letters this program meets (each decomposes into its
base letter followed by a combining mark). -/
def nfkdChar (c : Char) : List Char :=
  if c = 'á' then ['a', '\u0301']
  else if c = 'é' then ['e', '\u0301']
  else if c = 'í' then ['i', '\u0301']
  else if c = 'ó' then ['o', '\u0301']
  else if c = 'ú' then ['u', '\u0301']
  else if c = 'ñ' then ['n', '\u0303']
  else if c = 'ü' then ['u', '\u0308']
  else if c = 'Á' then ['A', '\u0301']
  else if c = 'É' then ['E', '\u0301']
  else if c = 'Í' then ['I', '\u0301']
  else if c = 'Ó' then ['O', '\u0301']
  else if c = 'Ú' then ['U', '\u0301']
  else if c = 'Ñ' then ['N', '\u0303']
  else if c = 'Ü' then ['U', '\u0308']
  else [c]

/-- Embeds `unicodedata.combining(ch) != 0` for the combining-diacritics block. -/
def isCombiningChar (c : Char) : Bool := 0x300 ≤ c.toNat && c.toNat ≤ 0x36F

/-- Python `str.casefold()` on one character (ASCII plus `ß → ss`, the
representative full case fold). -/
def casefoldChar (c : Char) : List Char :=
  if 'A' ≤ c ∧ c ≤ 'Z' then [Char.ofNat (c.toNat + 32)]
  else if c = 'ß' then ['s', 's']
  else [c]

/-- Embeds `normalize_text` from `app.py`: strip, NFKD, drop combining marks,
casefold. -/
def normalize_text (s : String) : String :=
  String.mk (((((stripChars s.toList).map nfkdChar).flatten).filter
    (fun c => !isCombiningChar c)).map casefoldChar).flatten

/-- The null coercion at the head of `normalize_text`: a `None` argument
becomes the empty string before the pipeline runs. -/
def normalize_text_val : Option String → String
  | none => normalize_text ("")
  | some s => normalize_text s

/-- Separator class of `re.split(r"[\s,;​]+", q)`. -/
def isSepChar (c : Char) : Bool :=
  isPySpace c || c == ',' || c == ';' || c == '\u200B'

/-- Split at every separator character (runs then yield empty chunks,
which the caller discards — same result as splitting on runs). -/
def splitSeps : List Char → List (List Char)
  | [] => [[]]
  | c :: rest =>
    let r := splitSeps rest
    if isSepChar c then [] :: r
    else
      match r with
      | [] => [[c]]
      | h :: t => (c :: h) :: t

/-- Embeds `tokenize_query` from `app.py`: normalize, split, drop empties. -/
def tokenize_query (q : String) : List String :=
  (splitSeps (normalize_text q).toList).filterMap
    (fun cs => if cs.isEmpty then none else some (String.mk cs))

/-- Does the first list start with the second? -/
def startsWithB : List Char → List Char → Bool
  | _, [] => true
  | [], _ :: _ => false
  | c :: cs, d :: ds => c == d && startsWithB cs ds

/-- Python's `needle in haystack` substring test. -/
def containsSeq (needle : List Char) : List Char → Bool
  | [] => needle.isEmpty
  | c :: cs => startsWithB (c :: cs) needle || containsSeq needle cs

/-- Embeds `t in p` on strings. -/
def pyIn (t p : String) : Bool := containsSeq t.toList p.toList

/-- Embeds `match_row` from `app.py`: `productos_text or ""` is normalized once,
then every term must be a substring (logical AND). -/
def match_row (productos_text : Option String) (terms : List String) : Bool :=
  terms.all (fun t => pyIn t (normalize_text (productos_text.getD (""))))

/-- Embeds `terms = tokenize_query(q) if q else []`. -/
def termsOf (q : String) : List String :=
  if q.isEmpty then [] else tokenize_query q

/-- Embeds `df[c]` for a standardized frame (first column with that label). -/
def Frame.colCells (f : Frame) (c : String) : List String :=
  ((f.cols.find? (fun p => p.1 == c)).map Prod.snd).getD []

/-- Embeds `df["productos"].apply(lambda x: match_row(x, terms))`. -/
def maskOf (df : Frame) (terms : List String) : List Bool :=
  (df.colCells ("productos")).map (fun x => match_row (some x) terms)

/-- Boolean-mask row selection, preserving row order. -/
def applyMask (mask : List Bool) (cells : List String) : List String :=
  (mask.zip cells).filterMap (fun p => if p.1 then some p.2 else none)

/-- Embeds `pd.DataFrame(columns=DISPLAY_ORDER)`: the awaiting-input result. -/
def emptyResults : Frame := ⟨DISPLAY_ORDER.map (fun c => (c, []))⟩

/-- The `results` computation of `app.py`: filter by the mask and select
the display columns when terms exist, otherwise the empty display frame. -/
def resultsOf (df : Frame) (q : String) : Frame :=
  let terms := termsOf q
  if terms.isEmpty then emptyResults
  else ⟨DISPLAY_ORDER.map (fun c => (c, applyMask (maskOf df terms) (df.colCells c)))⟩

/-- The three result-pane states of `app.py`. -/
inductive UiState
  | awaiting
  | noMatches
  | found (n : Nat)
deriving DecidableEq

/-- Embeds `if terms and results.empty: warning; elif not terms: info; else:
success(len(results))`. -/
def uiStateOf (terms : List String) (res : Frame) : UiState :=
  if !terms.isEmpty && res.emptyB then UiState.noMatches
  else if terms.isEmpty then UiState.awaiting
  else UiState.found res.nrows

/-- UTF-8 encoding of one code point. -/
def utf8Encode (n : Nat) : List Nat :=
  if n < 0x80 then [n]
  else if n < 0x800 then [0xC0 + n / 64, 0x80 + n % 64]
  else if n < 0x10000 then [0xE0 + n / 4096, 0x80 + n / 64 % 64, 0x80 + n % 64]
  else [0xF0 + n / 262144, 0x80 + n / 4096 % 64, 0x80 + n / 64 % 64, 0x80 + n % 64]

/-- UTF-8 bytes of a string. -/
def strUtf8 (s : String) : List Nat :=
  (s.toList.map (fun c => utf8Encode c.toNat)).flatten

/-- csv QUOTE_MINIMAL: quote a field containing comma, quote or newline. -/
def csvNeedsQuote (s : String) : Bool :=
  s.toList.any (fun c => c == ',' || c == '"' || c == '\n' || c == '\r')

/-- One csv field under QUOTE_MINIMAL (quotes doubled inside quotes). -/
def csvField (s : String) : String :=
  if csvNeedsQuote s then
    "\"" ++ String.mk ((s.toList.map (fun c => if c = '"' then ['"', '"'] else [c])).flatten) ++ "\""
  else s

/-- The rows of a frame, in order. -/
def Frame.rows (f : Frame) : List (List String) :=
  (List.range f.nrows).map (fun i => f.cols.map (fun p => p.2.getD i ("")))

/-- Embeds `to_csv(index=False)` line by line: header row then data rows. -/
def csvLines (f : Frame) : List String :=
  (String.intercalate ("," ) (f.names.map csvField)) ::
    f.rows.map (fun r => String.intercalate ("," ) (r.map csvField))

/-- Embeds `results.to_csv(index=False)` (Unix line terminator). -/
def to_csv (f : Frame) : String :=
  String.join ((csvLines f).map (fun l => l ++ "\n"))

/-- The UTF-8 byte-order mark, the prefix `encode("utf-8-sig")` adds. -/
def BOM : List Nat := [0xEF, 0xBB, 0xBF]

/-- Embeds `csv = results.to_csv(index=False).encode("utf-8-sig")`. -/
def csvExportBytes (f : Frame) : List Nat := BOM ++ strUtf8 (to_csv f)

/-- Embeds `file_name=f"proveedores_{selected_country}.csv"`. -/
def downloadName (country : String) : String :=
  "proveedores_" ++ country ++ ".csv"

/-- A sample raw sheet (aliased headers, padded and missing cells) used
to witness concrete runs of the pipeline. -/
def sampleSheet : RawFrame :=
  ⟨[(("Proveedor"), [some (" ACME "), some ("Beta")]),
    (("Producto"), [some ("latas"), none])]⟩

/-- The standardization of `sampleSheet`. -/
def sampleStd : Frame :=
  ⟨[(("nombre"), ["ACME", "Beta"]),
    (("productos"), ["latas", ("")]),
    (("web"), [(""), ("")]),
    (("telefono"), [(""), ("")]),
    (("email"), [(""), ("")]),
    (("pais"), [(""), ("")]),
    (("provincia / estado"), [(""), ("")]),
    (("ciudad"), [(""), ("")]),
    (("direccion"), [(""), ("")])]⟩

/-! ### Generic list lemmas -/

theorem head?_append_left {α : Type} (a b : List α) (h : a ≠ []) :
    (a ++ b).head? = a.head? := by
  cases a with
  | nil => exact absurd rfl h
  | cons x xs => rfl

theorem dropWhile_eq_drop_ex (p : Char → Bool) (l : List Char) :
    ∃ k, l.dropWhile p = l.drop k := by
  induction l with
  | nil => exact ⟨0, rfl⟩
  | cons a l ih =>
    by_cases hpa : p a
    · obtain ⟨k, hk⟩ := ih
      exact ⟨k + 1, by simpa [List.dropWhile, hpa] using hk⟩
    · exact ⟨0, by simp [List.dropWhile, hpa]⟩

theorem getLast?_dropWhile (p : Char → Bool) (l : List Char)
    (h : l.dropWhile p ≠ []) : (l.dropWhile p).getLast? = l.getLast? := by
  obtain ⟨k, hk⟩ := dropWhile_eq_drop_ex p l
  rw [hk] at h ⊢
  have h1 : (l.drop k).reverse ≠ [] := by simpa using h
  have h2 : ((l.take k ++ l.drop k).reverse).head? = ((l.drop k).reverse).head? := by
    rw [List.reverse_append]
    exact head?_append_left _ _ h1
  rw [List.take_append_drop] at h2
  rw [← List.head?_reverse, ← List.head?_reverse, h2]

theorem dropWhile_head_not (p : Char → Bool) (l : List Char) :
    ∀ c, (l.dropWhile p).head? = some c → p c = false := by
  induction l with
  | nil => intro c h; simp [List.dropWhile] at h
  | cons a l ih =>
    intro c h
    by_cases hpa : p a
    · rw [List.dropWhile_cons_of_pos hpa] at h
      exact ih c h
    · rw [List.dropWhile_cons_of_neg hpa] at h
      simp only [List.head?_cons, Option.some.injEq] at h
      subst h
      simpa using hpa

theorem dropWhile_id_of_head (p : Char → Bool) (l : List Char)
    (h : ∀ c, l.head? = some c → p c = false) : l.dropWhile p = l := by
  cases l with
  | nil => rfl
  | cons a l =>
    have := h a rfl
    simp [List.dropWhile, this]

theorem find?_eq_of_unique {α : Type} {p : α → Bool} {l : List α} {t : α}
    (hmem : t ∈ l) (hpt : p t = true) (huniq : ∀ x ∈ l, p x = true → x = t) :
    l.find? p = some t := by
  induction l with
  | nil => simp at hmem
  | cons a l ih =>
    by_cases hpa : p a
    · rw [List.find?_cons_of_pos _ hpa]
      exact congrArg some (huniq a (List.mem_cons_self a l) hpa)
    · rw [List.find?_cons_of_neg _ hpa]
      have ht : t ∈ l := by
        rcases List.mem_cons.mp hmem with h | h
        · subst h; exact absurd hpt hpa
        · exact h
      exact ih ht (fun x hx hpx => huniq x (List.mem_cons_of_mem _ hx) hpx)

theorem lookup_eq_some_of_unique {l : List (String × String)} {a b : String}
    (hmem : (a, b) ∈ l) (huniq : ∀ c, (a, c) ∈ l → c = b) :
    List.lookup a l = some b := by
  induction l with
  | nil => simp at hmem
  | cons q l ih =>
    obtain ⟨x, y⟩ := q
    by_cases hax : a = x
    · subst hax
      have : y = b := huniq y (List.mem_cons_self _ _)
      simp [List.lookup, this]
    · have hmem' : (a, b) ∈ l := by
        rcases List.mem_cons.mp hmem with h | h
        · exact absurd (congrArg Prod.fst h) hax
        · exact h
      have hbeq : (a == x) = false := by simpa using hax
      simpa [List.lookup, hbeq] using
        ih hmem' (fun c hc => huniq c (List.mem_cons_of_mem _ hc))

theorem mem_of_lookup_eq_some {l : List (String × String)} {a b : String}
    (h : List.lookup a l = some b) : (a, b) ∈ l := by
  induction l with
  | nil => simp [List.lookup] at h
  | cons q l ih =>
    obtain ⟨x, y⟩ := q
    by_cases hax : a = x
    · subst hax
      simp [List.lookup] at h
      subst h
      exact List.mem_cons_self _ _
    · have hbeq : (a == x) = false := by simpa using hax
      simp [List.lookup, hbeq] at h
      exact List.mem_cons_of_mem _ (ih h)

/-! ### Stripping lemmas -/

theorem strip_head_not (cs : List Char) :
    ∀ c, (stripChars cs).head? = some c → isPySpace c = false := by
  intro c h
  unfold stripChars at h
  set u := cs.dropWhile isPySpace with hu
  set v := (u.reverse).dropWhile isPySpace with hv
  by_cases hvnil : v = []
  · rw [hvnil] at h
    simp at h
  · rw [List.head?_reverse] at h
    rw [hv] at h
    rw [getLast?_dropWhile _ _ (hv ▸ hvnil)] at h
    rw [← List.head?_reverse, List.reverse_reverse] at h
    exact dropWhile_head_not isPySpace cs c h

theorem strip_last_not (cs : List Char) :
    ∀ c, ((stripChars cs).reverse).head? = some c → isPySpace c = false := by
  intro c h
  unfold stripChars at h
  rw [List.reverse_reverse] at h
  exact dropWhile_head_not isPySpace _ c h

theorem stripChars_idem (cs : List Char) :
    stripChars (stripChars cs) = stripChars cs := by
  have h1 : (stripChars cs).dropWhile isPySpace = stripChars cs :=
    dropWhile_id_of_head _ _ (strip_head_not cs)
  have h2 : ((stripChars cs).reverse).dropWhile isPySpace = (stripChars cs).reverse :=
    dropWhile_id_of_head _ _ (strip_last_not cs)
  show (((stripChars cs).dropWhile isPySpace).reverse.dropWhile isPySpace).reverse
      = stripChars cs
  rw [h1, h2, List.reverse_reverse]

theorem pyStrip_idem (s : String) : pyStrip (pyStrip s) = pyStrip s := by
  show String.mk (stripChars (String.mk (stripChars s.toList)).toList)
      = String.mk (stripChars s.toList)
  rw [show (String.mk (stripChars s.toList)).toList = stripChars s.toList from rfl]
  rw [stripChars_idem]

theorem stripChars_eq_nil (cs : List Char) (h : ∀ c ∈ cs, isPySpace c = true) :
    stripChars cs = [] := by
  have h1 : cs.dropWhile isPySpace = [] := List.dropWhile_eq_nil_iff.mpr h
  simp [stripChars, h1]

/-! ### Substring lemmas -/

theorem startsWithB_iff (n h : List Char) :
    startsWithB h n = true ↔ ∃ r, h = n ++ r := by
  induction n generalizing h with
  | nil =>
    simp [startsWithB]
  | cons d ds ih =>
    cases h with
    | nil =>
      simp [startsWithB]
    | cons c cs =>
      rw [show startsWithB (c :: cs) (d :: ds) = (c == d && startsWithB cs ds) from rfl]
      rw [Bool.and_eq_true, beq_iff_eq, ih]
      constructor
      · rintro ⟨rfl, r, rfl⟩
        exact ⟨r, rfl⟩
      · rintro ⟨r, hr⟩
        rw [List.cons_append] at hr
        injection hr with h1 h2
        exact ⟨h1, r, h2⟩

theorem containsSeq_iff (n h : List Char) :
    containsSeq n h = true ↔ ∃ l r, h = l ++ n ++ r := by
  induction h with
  | nil =>
    rw [show containsSeq n [] = n.isEmpty from rfl]
    constructor
    · intro he
      have : n = [] := by simpa [List.isEmpty_iff] using he
      exact ⟨[], [], by simp [this]⟩
    · rintro ⟨l, r, hlr⟩
      have := (List.append_eq_nil.mp (List.append_eq_nil.mp hlr.symm).1).2
      simp [List.isEmpty_iff, this]
  | cons c cs ih =>
    rw [show containsSeq n (c :: cs) = (startsWithB (c :: cs) n || containsSeq n cs) from rfl]
    rw [Bool.or_eq_true, startsWithB_iff, ih]
    constructor
    · rintro (⟨r, hr⟩ | ⟨l, r, hlr⟩)
      · exact ⟨[], r, by simpa using hr⟩
      · exact ⟨c :: l, r, by simp [hlr]⟩
    · rintro ⟨l, r, hlr⟩
      cases l with
      | nil => exact Or.inl ⟨r, by simpa using hlr⟩
      | cons x l' =>
        right
        rw [List.cons_append, List.cons_append] at hlr
        injection hlr with h1 h2
        exact ⟨l', r, by simpa using h2⟩

/-! ### Decidable facts about the alias table -/

theorem aliases_headP : ∀ p ∈ COL_ALIASES, p.2.head? = some p.1 := by decide

theorem aliases_fixP : ∀ p ∈ COL_ALIASES, _normalize_col p.1 = p.1 := by decide

theorem needed_fixP : ∀ k ∈ NEEDED, _normalize_col k = k := by decide

theorem needed_nodup : NEEDED.Nodup := by decide

theorem targets_needed : ∀ p ∈ COL_ALIASES, p.1 ∈ NEEDED := by decide

theorem needed_targets : ∀ k ∈ NEEDED, ∃ p ∈ COL_ALIASES, p.1 = k := by decide

theorem aliases_disjointP :
    ∀ p ∈ COL_ALIASES, ∀ q ∈ COL_ALIASES, ∀ v ∈ p.2, v ∈ q.2 → p.1 = q.1 := by decide

/-! ### Mapping lemmas -/

theorem colsNormFind_norm {names : List String} {k o : String}
    (h : colsNormFind names k = some o) : _normalize_col o = k := by
  have := List.find?_some h
  simpa using this

theorem findRename_exists {names vs : List String} {o : String}
    (h : findRename names vs = some o) : ∃ v ∈ vs, colsNormFind names v = some o := by
  induction vs with
  | nil => simp [findRename] at h
  | cons v rest ih =>
    rw [findRename] at h
    cases hc : colsNormFind names v with
    | some orig =>
      rw [hc] at h
      exact ⟨v, List.mem_cons_self _ _, by rw [hc]; exact h⟩
    | none =>
      rw [hc] at h
      obtain ⟨v', hv', hc'⟩ := ih h
      exact ⟨v', List.mem_cons_of_mem _ hv', hc'⟩

theorem findRename_head {names : List String} {t : String} {rest : List String} {o : String}
    (h : colsNormFind names t = some o) : findRename names (t :: rest) = some o := by
  rw [findRename, h]

theorem buildMapping_mem_target {names : List String} {o s : String}
    (h : (o, s) ∈ buildMapping names) :
    ∃ p ∈ COL_ALIASES, p.1 = s ∧ _normalize_col o ∈ p.2 := by
  rw [buildMapping, List.mem_filterMap] at h
  obtain ⟨p, hp, hfp⟩ := h
  cases hfr : findRename names p.2 with
  | none => rw [hfr] at hfp; simp at hfp
  | some orig =>
    rw [hfr] at hfp
    simp only [Option.map_some', Option.some.injEq, Prod.mk.injEq] at hfp
    obtain ⟨h1, h2⟩ := hfp
    obtain ⟨v, hv, hcv⟩ := findRename_exists hfr
    refine ⟨p, hp, h2, ?_⟩
    rw [← h1]
    rw [colsNormFind_norm hcv]
    exact hv

theorem buildMapping_value_unique {names : List String} {o s s' : String}
    (h1 : (o, s) ∈ buildMapping names) (h2 : (o, s') ∈ buildMapping names) : s = s' := by
  obtain ⟨p, hp, hps, hpv⟩ := buildMapping_mem_target h1
  obtain ⟨q, hq, hqs, hqv⟩ := buildMapping_mem_target h2
  have := aliases_disjointP p hp q hq _ hpv hqv
  rw [hps, hqs] at this
  exact this

theorem renameName_of_mem {names : List String} {o s : String}
    (h : (o, s) ∈ buildMapping names) :
    renameName (buildMapping names) o = s := by
  rw [renameName, lookup_eq_some_of_unique h (fun c hc => buildMapping_value_unique hc h)]
  rfl

theorem mapping_target_mem {names : List String} (p : String × List String)
    (hp : p ∈ COL_ALIASES) {o : String} (h : findRename names p.2 = some o) :
    (o, p.1) ∈ buildMapping names := by
  rw [buildMapping, List.mem_filterMap]
  exact ⟨p, hp, by rw [h]; rfl⟩

theorem colsNormFind_target_rename {names : List String} {t : String}
    (p : String × List String) (hp : p ∈ COL_ALIASES) (hpt : p.1 = t) {m₀ : String}
    (h : colsNormFind names t = some m₀) :
    renameName (buildMapping names) m₀ = t := by
  have hhd := aliases_headP p hp
  cases hv : p.2 with
  | nil => rw [hv] at hhd; simp at hhd
  | cons v rest =>
    rw [hv] at hhd
    simp only [List.head?_cons, Option.some.injEq] at hhd
    have hfr : findRename names p.2 = some m₀ := by
      rw [hv, hhd, hpt]
      exact findRename_head h
    have hmem := mapping_target_mem p hp hfr
    rw [hpt] at hmem
    exact renameName_of_mem hmem

theorem renameName_ne_imp_target {names : List String} {n : String}
    (h : renameName (buildMapping names) n ≠ n) :
    ∃ p ∈ COL_ALIASES, renameName (buildMapping names) n = p.1 := by
  rw [renameName] at h ⊢
  cases hl : List.lookup n (buildMapping names) with
  | none => rw [hl] at h; simp at h
  | some s =>
    have hmem := mem_of_lookup_eq_some hl
    obtain ⟨p, hp, hps, _⟩ := buildMapping_mem_target hmem
    exact ⟨p, hp, by simpa using hps.symm⟩

/-- The crucial positional fact: scanning the renamed labels from the
back, the first label whose normalized key is a canonical target `t`
is `t` itself (either the winner of the `cols_norm` tie was renamed to
`t`, or an original label `t` survived untouched). -/
theorem find_map_rename (t : String) (names : List String)
    (hfix : _normalize_col t = t) :
    ∀ ns : List String,
      (∀ m₀, ns.find? (fun n => _normalize_col n == t) = some m₀ →
        renameName (buildMapping names) m₀ = t) →
      t ∈ ns.map (renameName (buildMapping names)) →
      (∀ m ∈ ns, renameName (buildMapping names) m ≠ m →
        _normalize_col (renameName (buildMapping names) m) = renameName (buildMapping names) m) →
      (ns.map (renameName (buildMapping names))).find? (fun x => _normalize_col x == t) = some t := by
  intro ns
  induction ns with
  | nil =>
    intro _ hmem _
    simp at hmem
  | cons m rest ih =>
    intro hf hmem hm
    by_cases hpm : _normalize_col (renameName (buildMapping names) m) = t
    · have hrt : renameName (buildMapping names) m = t := by
        by_cases hrm : renameName (buildMapping names) m = m
        · rw [hrm] at hpm
          exact hf m (List.find?_cons_of_pos _ (by simpa using hpm))
        · exact ((hm m (List.mem_cons_self _ _) hrm).symm.trans hpm)
      rw [List.map_cons, List.find?_cons_of_pos _ (by simpa using hpm)]
      exact congrArg some hrt
    · have hne : _normalize_col m ≠ t := by
        intro hmt
        have h2 := hf m (List.find?_cons_of_pos _ (by simpa using hmt))
        exact hpm (by rw [h2, hfix])
      rw [List.map_cons, List.find?_cons_of_neg _ (by simpa using hpm)]
      apply ih
      · intro m₀ h₀
        exact hf m₀ (by rw [List.find?_cons_of_neg _ (by simpa using hne)]; exact h₀)
      · rw [List.map_cons] at hmem
        rcases List.mem_cons.mp hmem with h | h
        · exact absurd (by rw [← h, hfix]) hpm
        · exact h
      · exact fun m' hm' => hm m' (List.mem_cons_of_mem _ hm')

/-- After rename plus column creation, the `cols_norm` lookup of every
canonical target finds the canonically-named column itself. -/
theorem colsNormFind_self_of_structure
    (names added : List String) (t : String)
    (hfix : _normalize_col t = t)
    (p : String × List String) (hp : p ∈ COL_ALIASES) (hpt : p.1 = t)
    (haf : ∀ x ∈ added, _normalize_col x = x)
    (hin : t ∈ names.map (renameName (buildMapping names)) ++ added) :
    colsNormFind (names.map (renameName (buildMapping names)) ++ added) t = some t := by
  rw [colsNormFind, List.reverse_append, List.find?_append]
  by_cases hta : t ∈ added
  · have h1 : (added.reverse).find? (fun n => _normalize_col n == t) = some t := by
      apply find?_eq_of_unique (by simpa using hta) (by simp [hfix])
      intro x hx hpx
      have hxf := haf x (by simpa using hx)
      have : _normalize_col x = t := by simpa using hpx
      rw [← hxf]
      exact this
    rw [h1]
    rfl
  · have h1 : (added.reverse).find? (fun n => _normalize_col n == t) = none := by
      rw [List.find?_eq_none]
      intro x hx hpx
      have hxf := haf x (by simpa using hx)
      have hxt : _normalize_col x = t := by simpa using hpx
      exact hta (by rw [← hxf.symm.trans hxt]; simpa using hx)
    rw [h1]
    have hmem : t ∈ names.map (renameName (buildMapping names)) := by
      rcases List.mem_append.mp hin with h | h
      · exact h
      · exact absurd h hta
    have h2 : ((names.map (renameName (buildMapping names))).reverse).find?
        (fun x => _normalize_col x == t) = some t := by
      rw [← List.map_reverse]
      apply find_map_rename t names hfix (names.reverse)
      · intro m₀ h₀
        exact colsNormFind_target_rename p hp hpt h₀
      · rw [List.map_reverse]
        simpa using hmem
      · intro m _ hne
        obtain ⟨q, hq, hqe⟩ := renameName_ne_imp_target hne
        rw [hqe]
        exact aliases_fixP q hq
    rw [h2]
    rfl

/-! ### Column-creation lemmas -/

theorem addMissingAux_cols (nr : Nat) :
    ∀ (ks : List String) (f : RawFrame), ks.Nodup →
      (addMissingAux nr ks f).cols
        = f.cols ++ (ks.filter (fun k => !(f.names.contains k))).map
            (fun k => (k, List.replicate nr (some ("")))) := by
  intro ks
  induction ks with
  | nil =>
    intro f _
    simp [addMissingAux]
  | cons k rest ih =>
    intro f hnd
    rw [addMissingAux]
    by_cases hk : f.names.contains k
    · have hk2 : k ∈ f.names := by simpa using hk
      rw [if_pos hk, ih f (List.Nodup.of_cons hnd), List.filter_cons]
      simp [hk2]
    · have hk2 : ¬ k ∈ f.names := by simpa using hk
      rw [if_neg hk]
      have hnames : (RawFrame.mk (f.cols ++ [(k, List.replicate nr (some ("")))])).names
          = f.names ++ [k] := by
        simp [RawFrame.names]
      rw [ih _ (List.Nodup.of_cons hnd), hnames]
      have hfilter : rest.filter (fun q => !((f.names ++ [k]).contains q))
          = rest.filter (fun q => !(f.names.contains q)) := by
        apply List.filter_congr
        intro x hx
        have hxk : x ≠ k := fun he => (List.nodup_cons.mp hnd).1 (he ▸ hx)
        simp [hxk]
      rw [hfilter, List.filter_cons]
      simp [hk2]

theorem addMissingAux_noop (nr : Nat) :
    ∀ (ks : List String) (f : RawFrame), (∀ k ∈ ks, f.names.contains k = true) →
      addMissingAux nr ks f = f := by
  intro ks
  induction ks with
  | nil => intro f _; rfl
  | cons k rest ih =>
    intro f h
    rw [addMissingAux, if_pos (h k (List.mem_cons_self _ _))]
    exact ih f (fun q hq => h q (List.mem_cons_of_mem _ hq))

/-! ### Identity-rename lemmas for repeated standardization -/

theorem buildMapping_identity (ns : List String)
    (h : ∀ p ∈ COL_ALIASES, findRename ns p.2 = some p.1) :
    buildMapping ns = COL_ALIASES.map (fun p => (p.1, p.1)) := by
  rw [buildMapping]
  suffices h2 : ∀ L : List (String × List String),
      (∀ p ∈ L, findRename ns p.2 = some p.1) →
      L.filterMap (fun p => (findRename ns p.2).map (fun orig => (orig, p.1)))
        = L.map (fun p => (p.1, p.1)) by
    exact h2 COL_ALIASES h
  intro L hL
  induction L with
  | nil => rfl
  | cons p L ih =>
    rw [List.filterMap_cons, hL p (List.mem_cons_self _ _)]
    simp only [Option.map_some']
    rw [List.map_cons, ih (fun q hq => hL q (List.mem_cons_of_mem _ hq))]

theorem lookup_identity_pairs (L : List (String × List String)) (n : String) :
    (List.lookup n (L.map (fun p => (p.1, p.1)))).getD n = n := by
  induction L with
  | nil => rfl
  | cons p L ih =>
    by_cases h : n = p.1
    · subst h
      simp [List.lookup]
    · have hbeq : (n == p.1) = false := by simpa using h
      simpa [List.lookup, hbeq] using ih

/-! ### Unfolding a successful standardization -/

theorem standardize_ok_structure {df : RawFrame} {out : Frame}
    (h : standardize_columns (some df) = Except.ok out)
    (hne : df.emptyB = false) :
    hasDupB (standardizedRaw df).names = false ∧
    out = ⟨(standardizedRaw df).cols.map (fun p => (p.1, p.2.map cleanCell))⟩ := by
  rw [standardize_columns] at h
  simp only [hne, Bool.false_eq_true, if_false] at h
  by_cases hd : hasDupB (standardizedRaw df).names
  · simp [hd] at h
  · refine ⟨by simpa using hd, ?_⟩
    simp only [hd, Bool.false_eq_true, if_false, Except.ok.injEq] at h
    exact h.symm

theorem renameFrame_names (df : RawFrame) :
    (renameFrame df).names = df.names.map (renameName (buildMapping df.names)) := by
  simp [renameFrame, RawFrame.names, List.map_map]

theorem standardizedRaw_names (df : RawFrame) :
    (standardizedRaw df).names
      = (renameFrame df).names
        ++ NEEDED.filter (fun k => !((renameFrame df).names.contains k)) := by
  show (addMissingAux df.nrows NEEDED (renameFrame df)).names = _
  rw [RawFrame.names, addMissingAux_cols _ _ _ needed_nodup, List.map_append, List.map_map]
  congr 1
  exact (List.map_congr_left (fun a _ => rfl)).trans (List.map_id _)

theorem needed_mem_std (df : RawFrame) : ∀ t ∈ NEEDED, t ∈ (standardizedRaw df).names := by
  intro t ht
  rw [standardizedRaw_names]
  by_cases hc : (renameFrame df).names.contains t
  · exact List.mem_append.mpr (Or.inl (by simpa using hc))
  · exact List.mem_append.mpr (Or.inr (List.mem_filter.mpr ⟨ht, by simpa using hc⟩))

/-- On the output of a standardization pass every alias target resolves
to its own canonical column, so the second pass builds an identity
mapping. -/
theorem standardizedRaw_findRename (df : RawFrame) :
    ∀ p ∈ COL_ALIASES, findRename (standardizedRaw df).names p.2 = some p.1 := by
  intro p hp
  have hfix := aliases_fixP p hp
  have hK : colsNormFind (standardizedRaw df).names p.1 = some p.1 := by
    rw [standardizedRaw_names, renameFrame_names]
    apply colsNormFind_self_of_structure df.names _ p.1 hfix p hp rfl
    · intro x hx
      exact needed_fixP x (List.mem_filter.mp hx).1
    · have hm := needed_mem_std df p.1 (targets_needed p hp)
      rw [standardizedRaw_names, renameFrame_names] at hm
      exact hm
  have hhd := aliases_headP p hp
  cases hv : p.2 with
  | nil => rw [hv] at hhd; simp at hhd
  | cons v rest =>
    rw [hv] at hhd
    simp only [List.head?_cons, Option.some.injEq] at hhd
    rw [hhd]
    exact findRename_head hK

theorem renameName_std_id (df : RawFrame) (n : String) :
    renameName (buildMapping (standardizedRaw df).names) n = n := by
  rw [renameName, buildMapping_identity _ (standardizedRaw_findRename df)]
  exact lookup_identity_pairs COL_ALIASES n

theorem toOption_eq_ok {e : Except String Frame} {f : Frame} :
    e.toOption = some f ↔ e = Except.ok f := by
  cases e <;> simp [Except.toOption]

theorem renameFrame_cols (df : RawFrame) :
    (renameFrame df).cols
      = df.cols.map (fun p => (renameName (buildMapping df.names) p.1, p.2)) := rfl

theorem toRaw_cols (f : Frame) :
    f.toRaw.cols = f.cols.map (fun p => (p.1, p.2.map some)) := rfl

theorem standardizedRaw_def (df : RawFrame) :
    standardizedRaw df = addMissingAux df.nrows NEEDED (renameFrame df) := rfl

theorem rawFrame_eq_of_cols {a b : RawFrame} (h : a.cols = b.cols) : a = b := by
  cases a
  cases b
  cases h
  rfl

theorem standardize_ok_cols {df : RawFrame} {out : Frame}
    (h : standardize_columns (some df) = Except.ok out)
    (hne : df.emptyB = false) :
    hasDupB (standardizedRaw df).names = false ∧
    out.cols = (standardizedRaw df).cols.map (fun p => (p.1, p.2.map cleanCell)) ∧
    out.names = (standardizedRaw df).names := by
  obtain ⟨hdup, hout⟩ := standardize_ok_structure h hne
  refine ⟨hdup, ?_, ?_⟩
  · rw [hout]
  · rw [hout]
    simp only [Frame.names, RawFrame.names, List.map_map]
    exact List.map_congr_left (fun p _ => rfl)


/-- C4: `standardize_columns` is idempotent: applied to its own (successful)
output it returns the identical table — same column names, row order and
cell values — because each canonical column name is listed among (indeed,
first among) its own accepted variants and is a fixed point of
`_normalize_col`. -/
theorem c4_standardize_idempotent (dfOpt : Option RawFrame) (out : Frame)
    (h : (standardize_columns dfOpt).toOption = some out) :
    (standardize_columns (some out.toRaw)).toOption = some out := by
  rw [toOption_eq_ok] at h
  rw [toOption_eq_ok]
  cases dfOpt with
  | none =>
    have hoe : emptyCanonical = out := by
      rw [standardize_columns] at h
      simpa using h
    subst hoe
    rw [standardize_columns, if_pos (show emptyCanonical.toRaw.emptyB = true by rfl)]
  | some df =>
    by_cases hneP : df.emptyB = true
    · have hoe : emptyCanonical = out := by
        rw [standardize_columns, if_pos hneP] at h
        simpa using h
      subst hoe
      rw [standardize_columns, if_pos (show emptyCanonical.toRaw.emptyB = true by rfl)]
    · have hne : df.emptyB = false := by simpa using hneP
      obtain ⟨hdup, hcols, hnames_out⟩ := standardize_ok_cols h hne
      have hraw_names : out.toRaw.names = out.names := by
        simp only [RawFrame.names, toRaw_cols, Frame.names, List.map_map]
        exact List.map_congr_left (fun p _ => rfl)
      have hcells : ∀ p ∈ out.cols, ∀ x ∈ p.2, pyStrip x = x := by
        intro p hp x hx
        rw [hcols] at hp
        obtain ⟨q, _, hgq⟩ := List.mem_map.mp hp
        rw [← hgq] at hx
        obtain ⟨c, _, hcx⟩ := List.mem_map.mp hx
        rw [← hcx]
        exact pyStrip_idem _
      have hempties := hne
      rw [RawFrame.emptyB, Bool.or_eq_false_iff] at hempties
      have hcne : df.cols ≠ [] := List.isEmpty_eq_false.mp hempties.1
      obtain ⟨c₀, tl, hdf⟩ : ∃ c₀ tl, df.cols = c₀ :: tl := by
        cases hc : df.cols with
        | nil => exact absurd hc hcne
        | cons a l => exact ⟨a, l, rfl⟩
      have hnr : c₀.2.length ≠ 0 := by
        have h2 := hempties.2
        rw [RawFrame.nrows, hdf] at h2
        simpa using h2
      have hoc : out.cols
          = (renameName (buildMapping df.names) c₀.1, c₀.2.map cleanCell)
            :: (tl.map (fun p => (renameName (buildMapping df.names) p.1, p.2))
                ++ (NEEDED.filter (fun k => !((renameFrame df).names.contains k))).map
                    (fun k => (k, List.replicate df.nrows (some (""))))).map
                (fun p => (p.1, p.2.map cleanCell)) := by
        rw [hcols, standardizedRaw_def, addMissingAux_cols _ _ _ needed_nodup,
          renameFrame_cols, hdf, List.map_cons, List.cons_append, List.map_cons]
      have hneB : out.toRaw.emptyB = false := by
        simp [Frame.toRaw, RawFrame.emptyB, RawFrame.nrows, hoc, hnr]
      have hrnid : ∀ n, renameName (buildMapping out.toRaw.names) n = n := by
        intro n
        rw [hraw_names, hnames_out]
        exact renameName_std_id df n
      have hren2 : renameFrame out.toRaw = out.toRaw := by
        apply rawFrame_eq_of_cols
        rw [renameFrame_cols]
        refine (List.map_congr_left ?_).trans (List.map_id _)
        intro p _
        show (renameName (buildMapping out.toRaw.names) p.1, p.2) = p
        rw [hrnid p.1]
      have hstd2 : standardizedRaw out.toRaw = out.toRaw := by
        rw [standardizedRaw_def, hren2]
        apply addMissingAux_noop
        intro k hk
        have hm := needed_mem_std df k hk
        rw [← hnames_out, ← hraw_names] at hm
        simpa using hm
      have hdup2 : hasDupB out.toRaw.names = false := by
        rw [hraw_names, hnames_out]
        exact hdup
      rw [standardize_columns, if_neg (by simp [hneB])]
      simp only [hstd2, hdup2, Bool.false_eq_true, if_false, Except.ok.injEq]
      have hback : out.toRaw.cols.map (fun p => (p.1, p.2.map cleanCell)) = out.cols := by
        rw [toRaw_cols, List.map_map]
        refine (List.map_congr_left ?_).trans (List.map_id _)
        intro p hp
        show (p.1, (p.2.map some).map cleanCell) = p
        rw [List.map_map]
        have h2 : p.2.map (cleanCell ∘ some) = p.2 := by
          refine (List.map_congr_left ?_).trans (List.map_id _)
          intro x hx
          exact hcells p hp x hx
        rw [h2]
      rw [hback]


/-! ### Helpers for the alias-variant theorems -/

theorem findRename_singleton (h : String) (vs : List String) :
    findRename [h] vs = if vs.contains (_normalize_col h) then some h else none := by
  induction vs with
  | nil => rfl
  | cons v rest ih =>
    by_cases he : _normalize_col h = v
    · have hc : colsNormFind [h] v = some h := by
        rw [colsNormFind]
        exact List.find?_cons_of_pos _ (by simpa using he)
      rw [findRename, hc, if_pos (by simp [he.symm])]
    · have hc : colsNormFind [h] v = none := by
        rw [colsNormFind, List.find?_eq_none]
        intro x hx
        have hxh : x = h := by simpa using hx
        subst hxh
        simpa using he
      rw [findRename, hc, ih]
      have hxv : (_normalize_col h == v) = false := by simpa using he
      have hcc : (v :: rest).contains (_normalize_col h) = rest.contains (_normalize_col h) := by
        simp only [List.contains_eq_any_beq, List.any_cons, hxv, Bool.false_or]
      rw [hcc]

theorem mem_unique_of_fst_nodup {L : List (String × List String)}
    (hnd : (L.map Prod.fst).Nodup) {q r : String × List String}
    (hq : q ∈ L) (hr : r ∈ L) (hfst : q.1 = r.1) : q = r := by
  induction L with
  | nil => simp at hq
  | cons p L ih =>
    rw [List.map_cons, List.nodup_cons] at hnd
    rcases List.mem_cons.mp hq with h1 | h1 <;> rcases List.mem_cons.mp hr with h2 | h2
    · rw [h1, h2]
    · exfalso
      apply hnd.1
      rw [← h1, hfst]
      exact List.mem_map_of_mem Prod.fst h2
    · exfalso
      apply hnd.1
      rw [← h2, ← hfst]
      exact List.mem_map_of_mem Prod.fst h1
    · exact ih hnd.2 h1 h2

theorem filterMap_eq_nil_of_none {α : Type} {L : List (String × List String)}
    {g : String × List String → Option α}
    (h : ∀ q ∈ L, g q = none) : L.filterMap g = [] := by
  induction L with
  | nil => rfl
  | cons p L ih =>
    rw [List.filterMap_cons, h p (List.mem_cons_self _ _)]
    exact ih (fun q hq => h q (List.mem_cons_of_mem _ hq))

theorem filterMap_singleton_of_unique {α : Type} {L : List (String × List String)}
    {g : String × List String → Option α} {e : String × List String} {a : α}
    (hmem : e ∈ L) (hnd : L.Nodup)
    (hg : g e = some a)
    (hothers : ∀ q ∈ L, q ≠ e → g q = none) :
    L.filterMap g = [a] := by
  induction L with
  | nil => simp at hmem
  | cons p L ih =>
    rw [List.nodup_cons] at hnd
    rcases List.mem_cons.mp hmem with h1 | h1
    · subst h1
      rw [List.filterMap_cons, hg]
      rw [filterMap_eq_nil_of_none
        (fun q hq => hothers q (List.mem_cons_of_mem _ hq) (fun he => hnd.1 (he ▸ hq)))]
    · rw [List.filterMap_cons,
        hothers p (List.mem_cons_self _ _) (fun he => hnd.1 (he ▸ h1))]
      exact ih h1 hnd.2 (fun q hq hne => hothers q (List.mem_cons_of_mem _ hq) hne)

theorem aliases_nodup : COL_ALIASES.Nodup := by decide

theorem aliases_fst_nodup : (COL_ALIASES.map Prod.fst).Nodup := by decide

theorem resultsOf_names (df : Frame) (q : String) :
    (resultsOf df q).names = DISPLAY_ORDER := by
  rw [resultsOf]
  by_cases h : (termsOf q).isEmpty
  · rw [if_pos h]
    show (DISPLAY_ORDER.map (fun c => (c, ([] : List String)))).map Prod.fst = DISPLAY_ORDER
    rw [List.map_map]
    exact (List.map_congr_left (fun a _ => rfl)).trans (List.map_id _)
  · rw [if_neg h]
    show (DISPLAY_ORDER.map
        (fun c => (c, applyMask (maskOf df (termsOf q)) (df.colCells c)))).map Prod.fst
      = DISPLAY_ORDER
    rw [List.map_map]
    exact (List.map_congr_left (fun a _ => rfl)).trans (List.map_id _)

/-! ### Claim theorems -/

/-- C1 (amended): for every canonical column `c`, every declared variant
`v` that `_normalize_col` leaves unchanged — all variants except the two
slash-containing entries — and every header whose normalization equals
`v` (so equal to `v` up to case, surrounding whitespace and Spanish
accents), the Column Aliaser maps that single source column to `c`.  The
slash variants `provincia/estado` and `telefono/whatsapp` are unreachable
dictionary entries (the normalizer inserts a space before every slash),
refuted in the counterexample theorem. -/
theorem c1_alias_variant_rename (t : String) (vs : List String) (v h : String)
    (hmem : (t, vs) ∈ COL_ALIASES) (hv : v ∈ vs)
    (hfixv : _normalize_col v = v) (hnorm : _normalize_col h = v) :
    buildMapping [h] = [(h, t)] := by
  rw [buildMapping]
  apply filterMap_singleton_of_unique (e := (t, vs)) hmem aliases_nodup
  · rw [findRename_singleton, hnorm,
      if_pos (by rw [List.contains_eq_any_beq, List.any_eq_true]; exact ⟨v, hv, by simp⟩)]
    rfl
  · intro q hq hne
    rw [findRename_singleton, hnorm]
    have hqc : q.2.contains v = false := by
      by_contra hcon
      have hcon2 : q.2.contains v = true := by
        cases hb : q.2.contains v
        · exact absurd hb hcon
        · rfl
      have hvq : v ∈ q.2 := by
        rw [List.contains_eq_any_beq, List.any_eq_true] at hcon2
        obtain ⟨x, hx, hbx⟩ := hcon2
        have hvx : v = x := by simpa using hbx
        rw [hvx]
        exact hx
      exact hne (mem_unique_of_fst_nodup aliases_fst_nodup hq hmem
        (aliases_disjointP q hq (t, vs) hmem v hvq hv))
    rw [hqc]
    rfl

/-- C1 witness: header `Correo Electrónico` normalizes to the declared
variant `correo electronico` and is renamed to canonical `email`. -/
theorem c1_alias_variant_rename_witness :
    ((("email"), ["email", "mail", "e-mail", "correo", "correo electronico"]) ∈ COL_ALIASES
      ∧ ("correo electronico") ∈ ["email", "mail", "e-mail", "correo", "correo electronico"]
      ∧ _normalize_col ("correo electronico") = "correo electronico"
      ∧ _normalize_col ("Correo Electrónico") = "correo electronico")
    ∧ buildMapping [("Correo Electrónico")] = [(("Correo Electrónico"), ("email"))] :=
  ⟨⟨by decide, by decide, by decide, by decide⟩,
    c1_alias_variant_rename ("email") (["email", "mail", "e-mail", "correo", "correo electronico"])
      ("correo electronico") ("Correo Electrónico")
      (by decide) (by decide) (by decide) (by decide)⟩

/-- C1 counterexample: the slash variants are declared in the dictionary,
yet a column whose header literally equals them is NOT renamed — the
normalizer turns `provincia/estado` into `provincia /estado`, which no
variant matches; the canonical column is instead created empty and the
original column passes through. -/
theorem c1_slash_variants_unreachable :
    (("provincia / estado"),
        ["provincia / estado", "provincia", "estado", "provincia-estado", "provincia/estado"])
      ∈ COL_ALIASES
    ∧ (("telefono"), ["telefono", "tel", "whatsapp", "wa", "telefono/whatsapp"]) ∈ COL_ALIASES
    ∧ _normalize_col ("provincia/estado") = "provincia /estado"
    ∧ buildMapping [("provincia/estado")] = []
    ∧ buildMapping [("telefono/whatsapp")] = []
    ∧ (standardize_columns (some ⟨[(("provincia/estado"), [some ("Buenos Aires")])]⟩)).toOption
        = some ⟨(("provincia/estado"), ["Buenos Aires"]) :: NEEDED.map (fun k => (k, [("")]))⟩ := by
  decide

/-- C2 (amended): `match_row` succeeds exactly when every term occurs as a
contiguous substring of the normalized field (AND-of-substrings); `lata`
matches `latas de aluminio`, and `latas` does not match `lato`.  Contrary
to the original claim, `lata` does NOT match `latex` — `lata` is not a
substring of `latex` (refuted in the counterexample theorem). -/
theorem c2_match_row_semantics :
    (∀ (f : Option String) (ts : List String),
      match_row f ts = true
        ↔ ∀ t ∈ ts, ∃ l r, (normalize_text (f.getD (""))).toList = l ++ t.toList ++ r)
    ∧ match_row (some ("latas de aluminio")) [("lata")] = true
    ∧ match_row (some ("lato")) [("latas")] = false
    ∧ match_row (some ("latex")) [("lata")] = false := by
  refine ⟨?_, by decide, by decide, by decide⟩
  intro f ts
  rw [match_row, List.all_eq_true]
  constructor
  · intro hall t ht
    exact (containsSeq_iff _ _).mp (hall t ht)
  · intro hall t ht
    exact (containsSeq_iff _ _).mpr (hall t ht)

/-- C2 counterexample: the term `lata` does not match a field containing
`latex` — neither the bare word nor a longer field — because `lata` is
not a contiguous substring of `latex`. -/
theorem c2_lata_latex_counterexample :
    match_row (some ("latex")) [("lata")] = false
    ∧ match_row (some ("pintura de latex")) [("lata")] = false
    ∧ pyIn ("lata") ("latex") = false := by
  decide

/-- C3 (code bug): two source headers `nombre` and `Nombre` normalize to
the same key; the later one is renamed onto the canonical name already
held by the earlier one, giving duplicate labels, and the cleanup loop
then fails (in pandas, `df2[c]` is a `DataFrame` and `.str` raises
`AttributeError`) — contradicting the spec's guarantee that
`standardize_columns` never fails.  A single `nombre` column succeeds. -/
theorem c3_duplicate_label_failure :
    (standardize_columns (some ⟨[(("nombre"), [some ("a")]), (("Nombre"), [some ("b")])]⟩)).toOption
        = none
    ∧ (renameFrame ⟨[(("nombre"), [some ("a")]), (("Nombre"), [some ("b")])]⟩).names
        = [("nombre"), ("nombre")]
    ∧ (standardize_columns (some ⟨[(("nombre"), [some ("a")])]⟩)).toOption ≠ none := by
  decide

/-- C5 (amended): the later-column-wins rule holds only for the
`cols_norm` dictionary itself: when two source columns normalize to the
SAME key, the later column in table order wins the rename (dict
overwrite).  When they normalize to two DIFFERENT variants of the same
canonical target, the variant that comes first in the alias set's
declaration order decides, independent of column order: `proveedor`
beats `razon social` in either column order. -/
theorem c5_tie_break_semantics :
    (∀ (names : List String) (n k : String),
      colsNormFind (names ++ [n]) k
        = if _normalize_col n = k then some n else colsNormFind names k)
    ∧ renameName (buildMapping [("NOMBRE"), ("Nombre")]) ("Nombre") = "nombre"
    ∧ renameName (buildMapping [("NOMBRE"), ("Nombre")]) ("NOMBRE") = "NOMBRE"
    ∧ renameName (buildMapping [("proveedor"), ("razon social")]) ("proveedor") = "nombre"
    ∧ renameName (buildMapping [("razon social"), ("proveedor")]) ("proveedor") = "nombre" := by
  refine ⟨?_, by decide, by decide, by decide, by decide⟩
  intro names n k
  rw [colsNormFind, List.reverse_append, List.reverse_singleton, List.singleton_append]
  by_cases he : _normalize_col n = k
  · rw [if_pos he, List.find?_cons_of_pos _ (by simpa using he)]
  · rw [if_neg he, List.find?_cons_of_neg _ (by simpa using he)]
    rfl

/-- C5 counterexample: with source columns `proveedor` then
`razon social` (distinct variants of the same target `nombre`), it is the
EARLIER column that is renamed to the canonical name, not the later one
as the claim states; the later column passes through unchanged. -/
theorem c5_later_column_counterexample :
    renameName (buildMapping [("proveedor"), ("razon social")]) ("razon social")
        = "razon social"
    ∧ (standardize_columns
        (some ⟨[(("proveedor"), [some ("a")]), (("razon social"), [some ("b")])]⟩)).toOption
      = some ⟨[(("nombre"), ["a"]), (("razon social"), ["b"]),
          (("web"), [("")]), (("telefono"), [("")]), (("email"), [("")]), (("pais"), [("")]),
          (("provincia / estado"), [("")]), (("ciudad"), [("")]), (("direccion"), [("")]),
          (("productos"), [("")])]⟩ := by
  decide

/-- C6: the CSV export consists of the UTF-8 bytes of `to_csv` of the
filtered result frame prefixed with the byte-order mark (`utf-8-sig`);
the exported frame carries exactly the eight display columns (excluding
`productos`), the header row comes first, there is one line per filtered
row, and the download file name is parameterized by the country. -/
theorem c6_csv_export (df : Frame) (q : String) (country : String) :
    downloadName country = "proveedores_" ++ country ++ ".csv"
    ∧ (resultsOf df q).names = DISPLAY_ORDER
    ∧ DISPLAY_ORDER.length = 8
    ∧ (("productos") ∈ DISPLAY_ORDER → False)
    ∧ csvExportBytes (resultsOf df q) = BOM ++ strUtf8 (to_csv (resultsOf df q))
    ∧ (csvLines (resultsOf df q)).head?
        = some ("nombre,web,telefono,email,pais,provincia / estado,ciudad,direccion")
    ∧ (csvLines (resultsOf df q)).length = 1 + (resultsOf df q).nrows := by
  refine ⟨rfl, resultsOf_names df q, by decide, by decide, rfl, ?_, ?_⟩
  · rw [csvLines, List.head?_cons, resultsOf_names df q]
    decide
  · rw [csvLines, List.length_cons, Frame.rows]
    simp only [List.length_map, List.length_range]
    omega

/-- C7: a whitespace-only (or empty) query tokenizes to no terms, the
result set is the empty display frame, and the UI presents the
awaiting-input state, which is a different state from the no-matches
state shown for a non-empty term list with zero matching rows. -/
theorem c7_empty_query_awaiting (q : String) (df : Frame)
    (hws : ∀ c ∈ q.toList, isPySpace c = true) :
    termsOf q = []
    ∧ resultsOf df q = emptyResults
    ∧ uiStateOf (termsOf q) (resultsOf df q) = UiState.awaiting
    ∧ uiStateOf [("lata")] emptyResults = UiState.noMatches
    ∧ UiState.awaiting ≠ UiState.noMatches := by
  have ht : termsOf q = [] := by
    by_cases hq : q.isEmpty
    · rw [termsOf, if_pos hq]
    · rw [termsOf, if_neg hq, tokenize_query]
      have h1 : normalize_text q = "" := by
        rw [normalize_text, stripChars_eq_nil q.toList hws]
        rfl
      rw [h1]
      rfl
  have hres : resultsOf df q = emptyResults := by
    rw [resultsOf, ht]
    rfl
  refine ⟨ht, hres, ?_, by decide, by decide⟩
  rw [ht, hres]
  decide

/-- C7 witness: a concrete whitespace-only query on a concrete frame. -/
theorem c7_empty_query_awaiting_witness :
    (∀ c ∈ ("  \t ").toList, isPySpace c = true)
    ∧ (termsOf ("  \t ") = []
      ∧ resultsOf (⟨[]⟩ : Frame) ("  \t ") = emptyResults
      ∧ uiStateOf (termsOf ("  \t ")) (resultsOf (⟨[]⟩ : Frame) ("  \t ")) = UiState.awaiting
      ∧ uiStateOf [("lata")] emptyResults = UiState.noMatches
      ∧ UiState.awaiting ≠ UiState.noMatches) :=
  ⟨by decide, c7_empty_query_awaiting ("  \t ") ⟨[]⟩ (by decide)⟩

/-- C8: `normalize_text` trims, decomposes, strips combining marks and
case-folds: `Málaga`, `malaga` and `MALAGA` normalize identically (also
under surrounding whitespace); a null value yields the empty string; the
fold is a full case fold (`ß` becomes `ss`), and `ñ` loses its tilde. -/
theorem c8_normalize_text_contract :
    normalize_text ("Málaga") = "malaga"
    ∧ normalize_text ("malaga") = "malaga"
    ∧ normalize_text ("MALAGA") = "malaga"
    ∧ normalize_text (" \t Málaga  ") = "malaga"
    ∧ normalize_text_val none = ""
    ∧ normalize_text ("GROß") = "gross"
    ∧ normalize_text ("ñoño") = "nono" := by
  decide

/-- C9: `match_row` on an empty term sequence is vacuously true for every
field; the empty-query empty-result behavior comes solely from the
caller, which returns the empty display frame without consulting the
matcher when the term list is empty. -/
theorem c9_empty_terms_vacuous :
    (∀ f : Option String, match_row f [] = true)
    ∧ termsOf ("") = []
    ∧ (∀ df : Frame, resultsOf df ("") = emptyResults)
    ∧ uiStateOf (termsOf ("")) emptyResults = UiState.awaiting :=
  ⟨fun f => rfl, rfl, fun df => rfl, by decide⟩

/-- C10: a successful standardization of a non-empty table preserves the
row count and the rows themselves: every original column reappears (in
order) with only its label renamed and its cells trimmed, followed only
by the created all-empty canonical columns; no row is added, deleted or
reordered. -/
theorem c10_row_preservation (df : RawFrame) (out : Frame)
    (hok : (standardize_columns (some df)).toOption = some out)
    (hne : df.emptyB = false) :
    out.nrows = df.nrows
    ∧ out.cols
      = df.cols.map (fun p => (renameName (buildMapping df.names) p.1, p.2.map cleanCell))
        ++ (NEEDED.filter (fun k => !((renameFrame df).names.contains k))).map
            (fun k => (k, List.replicate df.nrows (""))) := by
  rw [toOption_eq_ok] at hok
  obtain ⟨_, hcols, _⟩ := standardize_ok_cols hok hne
  have hstruct : out.cols
      = df.cols.map (fun p => (renameName (buildMapping df.names) p.1, p.2.map cleanCell))
        ++ (NEEDED.filter (fun k => !((renameFrame df).names.contains k))).map
            (fun k => (k, List.replicate df.nrows (""))) := by
    rw [hcols, standardizedRaw_def, addMissingAux_cols _ _ _ needed_nodup,
      renameFrame_cols, List.map_append, List.map_map, List.map_map]
    have e1 : df.cols.map
        ((fun p => (p.1, p.2.map cleanCell))
          ∘ (fun p => (renameName (buildMapping df.names) p.1, p.2)))
        = df.cols.map
            (fun p => (renameName (buildMapping df.names) p.1, p.2.map cleanCell)) :=
      List.map_congr_left (fun p _ => rfl)
    have e2 : (NEEDED.filter (fun k => !((renameFrame df).names.contains k))).map
        ((fun p => (p.1, p.2.map cleanCell))
          ∘ (fun k => (k, List.replicate df.nrows (some ("")))))
        = (NEEDED.filter (fun k => !((renameFrame df).names.contains k))).map
            (fun k => (k, List.replicate df.nrows (""))) :=
      List.map_congr_left (fun k _ => by
        show (k, (List.replicate df.nrows (some (""))).map cleanCell)
            = (k, List.replicate df.nrows (""))
        rw [List.map_replicate, show cleanCell (some ("")) = "" from rfl])
    rw [e1, e2]
  refine ⟨?_, hstruct⟩
  have hempties := hne
  rw [RawFrame.emptyB, Bool.or_eq_false_iff] at hempties
  have hcne : df.cols ≠ [] := List.isEmpty_eq_false.mp hempties.1
  obtain ⟨c₀, tl, hdf⟩ : ∃ c₀ tl, df.cols = c₀ :: tl := by
    cases hc : df.cols with
    | nil => exact absurd hc hcne
    | cons a l => exact ⟨a, l, rfl⟩
  have hhead : out.cols.head?
      = some (renameName (buildMapping df.names) c₀.1, c₀.2.map cleanCell) := by
    rw [hstruct, hdf, List.map_cons, List.cons_append]
    rfl
  rw [Frame.nrows, hhead, RawFrame.nrows, hdf]
  show (c₀.2.map cleanCell).length = c₀.2.length
  exact List.length_map _ _

/-- C10 witness: standardizing the two-row sample sheet. -/
theorem c10_row_preservation_witness :
    ((standardize_columns (some sampleSheet)).toOption = some sampleStd)
    ∧ sampleSheet.emptyB = false
    ∧ (sampleStd.nrows = sampleSheet.nrows
      ∧ sampleStd.cols
        = sampleSheet.cols.map
            (fun p => (renameName (buildMapping sampleSheet.names) p.1, p.2.map cleanCell))
          ++ (NEEDED.filter (fun k => !((renameFrame sampleSheet).names.contains k))).map
              (fun k => (k, List.replicate sampleSheet.nrows ("")))) :=
  ⟨by decide, by decide, c10_row_preservation sampleSheet sampleStd (by decide) (by decide)⟩

/-- C4 witness: the standardized sample sheet standardizes to itself. -/
theorem c4_standardize_idempotent_witness :
    ((standardize_columns (some sampleSheet)).toOption = some sampleStd)
    ∧ (standardize_columns (some sampleStd.toRaw)).toOption = some sampleStd :=
  ⟨by decide, c4_standardize_idempotent (some sampleSheet) sampleStd (by decide)⟩
